import Mathlib

/-!
AArch64 target parser: a shallow embedding of `llvm/lib/TargetParser/AArch64TargetParser.cpp`.

The static reference tables of the C++ code (`ArchInfos`, `CpuInfos`,
`CpuAliases`, `Extensions`) and the constant `ARMV8A` live in a header
that is not among the source files; every function below takes the
tables it reads as explicit arguments, so every theorem holds for all
tables.  A `StringRef` is a Lean `String`, read as its sequence of
characters.  A `for` loop with an early `return` is a recursion over
the table, in table order.
-/

namespace AArch64

/-! ## Data model -/

/-- Modelled from the spec: the architecture descriptor, declared in the
absent header `AArch64TargetParser.h`: a canonical name, a
sub-architecture tag and a numeric version. -/
structure ArchInfo where
  Name : String
  SubArch : String
  Version : Nat
  deriving DecidableEq, Repr

/-- Modelled from the spec: the extension bitset, declared in the absent
header: a bit vector indexed by `ExtensionInfo.ID`; bit `i` of the
number is bit `i` of the set. -/
abbrev ExtensionBitset := Nat

/-- Modelled from the spec: the CPU descriptor, declared in the absent
header: a canonical CPU name, its architecture and its default
extension set. -/
structure CpuInfo where
  Name : String
  Arch : ArchInfo
  DefaultExtensions : ExtensionBitset
  deriving DecidableEq, Repr

/-- Modelled from the spec: the extension descriptor, declared in the
absent header: a name, the bit position `ID` in an extension bitset,
the bit position `CPUFeature` in the supports mask, and the positive
and negative feature strings. -/
structure ExtensionInfo where
  Name : String
  ID : Nat
  CPUFeature : Nat
  Feature : String
  NegFeature : String
  deriving DecidableEq, Repr

/-- Modelled from the spec: the alias entry, declared in the absent
header: the pair of an alias string and a canonical CPU name. -/
structure CpuAlias where
  Alias : String
  Name : String
  deriving DecidableEq, Repr

/-! ## `StringRef` primitives -/

/-- Modelled from the spec: `StringRef::starts_with`, defined in the
absent `StringRef.h`: the string begins with the given characters. -/
def starts_with (S Pre : String) : Bool :=
  Pre.data.isPrefixOf S.data

/-- Modelled from the spec: `StringRef::ends_with`, defined in the
absent `StringRef.h`: the string ends with the given characters. -/
def ends_with (S Suf : String) : Bool :=
  Suf.data.isSuffixOf S.data

/-- Modelled from the spec: `StringRef::drop_front`, defined in the
absent `StringRef.h`: the string without its first `N` characters. -/
def drop_front (S : String) (N : Nat) : String :=
  ⟨S.data.drop N⟩

/-! ## The functions of `AArch64TargetParser.cpp` -/

/-- The function `checkArchVersion`: the digit after a leading `v`, else `0`. -/
def checkArchVersion (Arch : String) : Nat :=
  match Arch.data with
  | c0 :: c1 :: _ => if c0 = 'v' ∧ c1.isDigit = true then c1.toNat - 48 else 0
  | _ => 0

/-- The function `AArch64::resolveCPUAlias`: the first alias entry whose
alias string is `Name` gives the result; without one, `Name` itself. -/
def resolveCPUAlias (CpuAliases : List CpuAlias) (Name : String) : String :=
  match CpuAliases with
  | [] => Name
  | A :: rest => if A.Alias = Name then A.Name else resolveCPUAlias rest Name

/-- The loop of `AArch64::parseCpu` over the CPU table. -/
def parseCpuLoop (CpuInfos : List CpuInfo) (Name : String) : Option CpuInfo :=
  match CpuInfos with
  | [] => none
  | C :: rest => if Name = C.Name then some C else parseCpuLoop rest Name

/-- The function `AArch64::parseCpu`: resolve aliases first, then find the
CPU name. -/
def parseCpu (CpuInfos : List CpuInfo) (CpuAliases : List CpuAlias)
    (Name : String) : Option CpuInfo :=
  parseCpuLoop CpuInfos (resolveCPUAlias CpuAliases Name)

/-- The function `AArch64::getArchForCpu`. -/
def getArchForCpu (ARMV8A : ArchInfo) (CpuInfos : List CpuInfo)
    (CpuAliases : List CpuAlias) (CPU : String) : Option ArchInfo :=
  if CPU = "generic" then some ARMV8A
  else
    match parseCpu CpuInfos CpuAliases CPU with
    | none => none
    | some Cpu => some Cpu.Arch

/-- The function `AArch64::ArchInfo::findBySubArch`. -/
def findBySubArch (ArchInfos : List ArchInfo) (SubArch : String) : Option ArchInfo :=
  match ArchInfos with
  | [] => none
  | A :: rest => if A.SubArch = SubArch then some A else findBySubArch rest SubArch

/-- The function `AArch64::parseArchExtension`. -/
def parseArchExtension (Extensions : List ExtensionInfo) (ArchExt : String) :
    Option ExtensionInfo :=
  match Extensions with
  | [] => none
  | A :: rest => if ArchExt = A.Name then some A else parseArchExtension rest ArchExt

/-- The 64-bit left shift `1ULL << N` of the supports mask, exact for `N`
below 64; for a larger `N` the C++ shift is undefined, and every statement
about the value of the mask takes the shift amounts below 64. -/
def shl64 (X N : Nat) : Nat :=
  (X <<< N) % 2 ^ 64

/-- The loop of `AArch64::getCpuSupportsMask`, with the mask built so far. -/
def getCpuSupportsMaskLoop (Extensions : List ExtensionInfo) (FeaturesMask : Nat)
    (FeatureStrs : List String) : Nat :=
  match FeatureStrs with
  | [] => FeaturesMask
  | FeatureStr :: rest =>
    match parseArchExtension Extensions FeatureStr with
    | some Ext =>
      getCpuSupportsMaskLoop Extensions (FeaturesMask ||| shl64 1 Ext.CPUFeature) rest
    | none => getCpuSupportsMaskLoop Extensions FeaturesMask rest

/-- The function `AArch64::getCpuSupportsMask`. -/
def getCpuSupportsMask (Extensions : List ExtensionInfo) (FeatureStrs : List String) : Nat :=
  getCpuSupportsMaskLoop Extensions 0 FeatureStrs

/-- The function `AArch64::getExtensionFeatures`: the returned flag and the
output vector after the call. -/
def getExtensionFeatures (Extensions : List ExtensionInfo) (InputExts : ExtensionBitset)
    (Features : List String) : Bool × List String :=
  match Extensions with
  | [] => (true, Features)
  | E :: rest =>
    if InputExts.testBit E.ID = true ∧ ¬ E.Feature = "" then
      getExtensionFeatures rest InputExts (Features ++ [E.Feature])
    else getExtensionFeatures rest InputExts Features

/-- The function `AArch64::getArchExtFeature`. -/
def getArchExtFeature (Extensions : List ExtensionInfo) (ArchExt : String) : String :=
  let IsNegated := starts_with ArchExt "no"
  let ArchExtBase := if IsNegated then drop_front ArchExt 2 else ArchExt
  match parseArchExtension Extensions ArchExtBase with
  | some AE => if IsNegated then AE.NegFeature else AE.Feature
  | none => ""

/-- The function `AArch64::fillValidCPUArchList`: the output vector after the
call. -/
def fillValidCPUArchList (CpuInfos : List CpuInfo) (CpuAliases : List CpuAlias)
    (Values : List String) : List String :=
  let afterCpus := CpuInfos.foldl (fun V C => V ++ [C.Name]) Values
  CpuAliases.foldl (fun V A => V ++ [A.Alias]) afterCpus

/-- The loop of `AArch64::parseArch` over the architecture table. -/
def parseArchLoop (ArchInfos : List ArchInfo) (Syn : String) : Option ArchInfo :=
  match ArchInfos with
  | [] => none
  | A :: rest => if ends_with A.Name Syn = true then some A else parseArchLoop rest Syn

/-- The function `AArch64::parseArch`; `getCanonicalArchName` and
`getArchSynonym` are the two collaborators of `ARMTargetParserCommon`. -/
def parseArch (getCanonicalArchName getArchSynonym : String → String)
    (ArchInfos : List ArchInfo) (Arch : String) : Option ArchInfo :=
  let Arch := getCanonicalArchName Arch
  if checkArchVersion Arch < 8 then none
  else
    let Syn := getArchSynonym Arch
    parseArchLoop ArchInfos Syn

/-! ## Concrete descriptors of the examples -/

/-- An architecture descriptor for concrete tables: the baseline. -/
def archV8 : ArchInfo := ⟨"armv8-a", "v8a", 8⟩

/-- An architecture descriptor for concrete tables: a later revision. -/
def archV9 : ArchInfo := ⟨"armv9-a", "v9a", 9⟩

/-! ## Table lookups: shared lemmas -/

theorem resolveCPUAlias_of_no_alias (CpuAliases : List CpuAlias) (Name : String)
    (h : ∀ B ∈ CpuAliases, B.Alias ≠ Name) :
    resolveCPUAlias CpuAliases Name = Name := by
  induction CpuAliases with
  | nil => rfl
  | cons A rest ih =>
    have hA : A.Alias ≠ Name := h A (List.mem_cons_self _ _)
    have hrest : ∀ B ∈ rest, B.Alias ≠ Name := fun B hB => h B (List.mem_cons_of_mem _ hB)
    simp [resolveCPUAlias, hA, ih hrest]

theorem resolveCPUAlias_first (pre post : List CpuAlias) (A : CpuAlias)
    (h : ∀ B ∈ pre, B.Alias ≠ A.Alias) :
    resolveCPUAlias (pre ++ A :: post) A.Alias = A.Name := by
  induction pre with
  | nil => simp [resolveCPUAlias]
  | cons P rest ih =>
    have hP : P.Alias ≠ A.Alias := h P (List.mem_cons_self _ _)
    have hrest : ∀ B ∈ rest, B.Alias ≠ A.Alias := fun B hB => h B (List.mem_cons_of_mem _ hB)
    simp [resolveCPUAlias, hP, ih hrest]

theorem parseCpuLoop_eq_find (CpuInfos : List CpuInfo) (Name : String) :
    parseCpuLoop CpuInfos Name = CpuInfos.find? (fun C => decide (Name = C.Name)) := by
  induction CpuInfos with
  | nil => rfl
  | cons C rest ih =>
    by_cases hC : Name = C.Name
    · simp [parseCpuLoop, List.find?, hC]
    · simp [parseCpuLoop, List.find?, hC, ih]

theorem parseCpuLoop_some_iff (CpuInfos : List CpuInfo) (Name : String) (D : CpuInfo) :
    parseCpuLoop CpuInfos Name = some D ↔
      D.Name = Name ∧ ∃ pre post, CpuInfos = pre ++ D :: post ∧ ∀ B ∈ pre, B.Name ≠ Name := by
  rw [parseCpuLoop_eq_find, List.find?_eq_some]
  constructor
  · rintro ⟨hD, pre, post, hsplit, hpre⟩
    refine ⟨(of_decide_eq_true hD).symm, pre, post, hsplit, ?_⟩
    intro B hB hEq
    have := hpre B hB
    simp [hEq] at this
  · rintro ⟨hD, pre, post, hsplit, hpre⟩
    refine ⟨by simp [hD], pre, post, hsplit, ?_⟩
    intro B hB
    have := hpre B hB
    simp [Ne.symm this]

theorem parseCpuLoop_none_iff (CpuInfos : List CpuInfo) (Name : String) :
    parseCpuLoop CpuInfos Name = none ↔ ∀ B ∈ CpuInfos, B.Name ≠ Name := by
  rw [parseCpuLoop_eq_find, List.find?_eq_none]
  constructor
  · intro h B hB hEq
    have := h B hB
    simp [hEq] at this
  · intro h B hB
    have := h B hB
    simp [Ne.symm this]

theorem parseCpuLoop_of_mem (CpuInfos : List CpuInfo) (C : CpuInfo) (hC : C ∈ CpuInfos) :
    ∃ D, parseCpuLoop CpuInfos C.Name = some D := by
  cases h : parseCpuLoop CpuInfos C.Name with
  | some D => exact ⟨D, rfl⟩
  | none => exact absurd rfl ((parseCpuLoop_none_iff CpuInfos C.Name).1 h C hC)

theorem parseArchLoop_eq_find (ArchInfos : List ArchInfo) (Syn : String) :
    parseArchLoop ArchInfos Syn = ArchInfos.find? (fun A => ends_with A.Name Syn) := by
  induction ArchInfos with
  | nil => rfl
  | cons A rest ih =>
    by_cases hA : ends_with A.Name Syn = true
    · simp [parseArchLoop, List.find?, hA]
    · simp [parseArchLoop, List.find?, hA, ih]

theorem checkArchVersion_of_not_v_digit (Arch : String)
    (h : ¬ ∃ d rest, Arch.data = 'v' :: d :: rest ∧ d.isDigit = true) :
    checkArchVersion Arch = 0 := by
  unfold checkArchVersion
  split
  · next c0 c1 rest hdata =>
    by_cases hc : c0 = 'v' ∧ c1.isDigit = true
    · exact absurd ⟨c1, rest, by rw [hdata, hc.1], hc.2⟩ h
    · simp [hc]
  · rfl

theorem parseArchExtension_first (pre post : List ExtensionInfo) (E : ExtensionInfo)
    (h : ∀ B ∈ pre, B.Name ≠ E.Name) :
    parseArchExtension (pre ++ E :: post) E.Name = some E := by
  induction pre with
  | nil => simp [parseArchExtension]
  | cons P rest ih =>
    have hP : ¬ E.Name = P.Name := fun hEq => h P (List.mem_cons_self _ _) hEq.symm
    have hrest : ∀ B ∈ rest, B.Name ≠ E.Name := fun B hB => h B (List.mem_cons_of_mem _ hB)
    simp [parseArchExtension, hP, ih hrest]

theorem parseArchExtension_mem (Extensions : List ExtensionInfo) (ArchExt : String)
    (E : ExtensionInfo) (h : parseArchExtension Extensions ArchExt = some E) :
    E ∈ Extensions ∧ E.Name = ArchExt := by
  induction Extensions with
  | nil => simp [parseArchExtension] at h
  | cons A rest ih =>
    by_cases hA : ArchExt = A.Name
    · simp [parseArchExtension, hA] at h
      subst h
      exact ⟨List.mem_cons_self _ _, hA.symm⟩
    · simp [parseArchExtension, hA] at h
      exact ⟨List.mem_cons_of_mem _ (ih h).1, (ih h).2⟩

theorem starts_with_no_append (S : String) : starts_with ("no" ++ S) "no" = true := by
  simp [starts_with, String.data_append, List.isPrefixOf]

theorem drop_front_no_append (S : String) : drop_front ("no" ++ S) 2 = S := by
  simp [drop_front, String.data_append]

theorem shl64_one (N : Nat) (h : N < 64) : shl64 1 N = 2 ^ N := by
  unfold shl64
  rw [Nat.one_shiftLeft]
  exact Nat.mod_eq_of_lt (Nat.pow_lt_pow_right (by decide) h)

theorem getCpuSupportsMaskLoop_testBit (Extensions : List ExtensionInfo)
    (hlt : ∀ E ∈ Extensions, E.CPUFeature < 64)
    (FeaturesMask : Nat) (FeatureStrs : List String) (b : Nat) :
    (getCpuSupportsMaskLoop Extensions FeaturesMask FeatureStrs).testBit b = true ↔
      FeaturesMask.testBit b = true ∨
      ∃ t ∈ FeatureStrs, ∃ E, parseArchExtension Extensions t = some E ∧ E.CPUFeature = b := by
  induction FeatureStrs generalizing FeaturesMask with
  | nil => simp [getCpuSupportsMaskLoop]
  | cons t rest ih =>
    cases hp : parseArchExtension Extensions t with
    | none =>
      simp only [getCpuSupportsMaskLoop, hp]
      rw [ih]
      simp [hp]
    | some E =>
      have hE : E.CPUFeature < 64 := hlt E (parseArchExtension_mem Extensions t E hp).1
      simp only [getCpuSupportsMaskLoop, hp]
      rw [ih, shl64_one _ hE, Nat.testBit_or, Nat.testBit_two_pow]
      simp [hp, or_assoc]

theorem getCpuSupportsMaskLoop_eq_fold (Extensions : List ExtensionInfo)
    (hlt : ∀ E ∈ Extensions, E.CPUFeature < 64)
    (FeaturesMask : Nat) (FeatureStrs : List String) :
    getCpuSupportsMaskLoop Extensions FeaturesMask FeatureStrs =
      ((FeatureStrs.filterMap (parseArchExtension Extensions)).map
        (fun E => 1 <<< E.CPUFeature)).foldl (fun m x => m ||| x) FeaturesMask := by
  induction FeatureStrs generalizing FeaturesMask with
  | nil => simp [getCpuSupportsMaskLoop]
  | cons t rest ih =>
    cases hp : parseArchExtension Extensions t with
    | none => simp [getCpuSupportsMaskLoop, hp, ih]
    | some E =>
      have hE : E.CPUFeature < 64 := hlt E (parseArchExtension_mem Extensions t E hp).1
      simp [getCpuSupportsMaskLoop, hp, ih, shl64_one _ hE, Nat.one_shiftLeft]

theorem shl64_lt (X N : Nat) : shl64 X N < 2 ^ 64 :=
  Nat.mod_lt _ (by decide)

theorem getCpuSupportsMaskLoop_lt (Extensions : List ExtensionInfo)
    (FeaturesMask : Nat) (FeatureStrs : List String) (h : FeaturesMask < 2 ^ 64) :
    getCpuSupportsMaskLoop Extensions FeaturesMask FeatureStrs < 2 ^ 64 := by
  induction FeatureStrs generalizing FeaturesMask with
  | nil => simpa [getCpuSupportsMaskLoop] using h
  | cons t rest ih =>
    cases hp : parseArchExtension Extensions t with
    | none => simpa [getCpuSupportsMaskLoop, hp] using ih FeaturesMask h
    | some E =>
      simpa [getCpuSupportsMaskLoop, hp] using
        ih (FeaturesMask ||| shl64 1 E.CPUFeature) (Nat.or_lt_two_pow h (shl64_lt 1 E.CPUFeature))

theorem getCpuSupportsMaskLoop_filter (Extensions : List ExtensionInfo)
    (FeaturesMask : Nat) (FeatureStrs : List String) :
    getCpuSupportsMaskLoop Extensions FeaturesMask FeatureStrs =
      getCpuSupportsMaskLoop Extensions FeaturesMask
        (FeatureStrs.filter (fun t => (parseArchExtension Extensions t).isSome)) := by
  induction FeatureStrs generalizing FeaturesMask with
  | nil => rfl
  | cons t rest ih =>
    cases hp : parseArchExtension Extensions t with
    | none => simp [getCpuSupportsMaskLoop, hp, List.filter, ← ih]
    | some E => simp [getCpuSupportsMaskLoop, hp, List.filter, ← ih]

theorem getCpuSupportsMaskLoop_unknown (Extensions : List ExtensionInfo)
    (FeaturesMask : Nat) (FeatureStrs : List String)
    (h : ∀ t ∈ FeatureStrs, parseArchExtension Extensions t = none) :
    getCpuSupportsMaskLoop Extensions FeaturesMask FeatureStrs = FeaturesMask := by
  induction FeatureStrs with
  | nil => rfl
  | cons t rest ih =>
    have ht : parseArchExtension Extensions t = none := h t (List.mem_cons_self _ _)
    have hrest : ∀ u ∈ rest, parseArchExtension Extensions u = none :=
      fun u hu => h u (List.mem_cons_of_mem _ hu)
    simp [getCpuSupportsMaskLoop, ht, ih hrest]

theorem getCpuSupportsMaskLoop_append (Extensions : List ExtensionInfo)
    (FeaturesMask : Nat) (xs ys : List String) :
    getCpuSupportsMaskLoop Extensions FeaturesMask (xs ++ ys) =
      getCpuSupportsMaskLoop Extensions
        (getCpuSupportsMaskLoop Extensions FeaturesMask xs) ys := by
  induction xs generalizing FeaturesMask with
  | nil => rfl
  | cons t rest ih =>
    cases hp : parseArchExtension Extensions t with
    | none => simp [getCpuSupportsMaskLoop, hp, ih]
    | some E => simp [getCpuSupportsMaskLoop, hp, ih]

theorem getCpuSupportsMask_testBit (Extensions : List ExtensionInfo)
    (hlt : ∀ E ∈ Extensions, E.CPUFeature < 64) (FeatureStrs : List String) (b : Nat) :
    (getCpuSupportsMask Extensions FeatureStrs).testBit b = true ↔
      ∃ t ∈ FeatureStrs, ∃ E, parseArchExtension Extensions t = some E ∧ E.CPUFeature = b := by
  rw [getCpuSupportsMask, getCpuSupportsMaskLoop_testBit Extensions hlt]
  simp

theorem getExtensionFeatures_eq (Extensions : List ExtensionInfo)
    (InputExts : ExtensionBitset) (Features : List String) :
    getExtensionFeatures Extensions InputExts Features =
      (true, Features ++ (Extensions.filter
        (fun E => InputExts.testBit E.ID && decide (¬ E.Feature = ""))).map
          (fun E => E.Feature)) := by
  induction Extensions generalizing Features with
  | nil => simp [getExtensionFeatures]
  | cons E rest ih =>
    by_cases hE : InputExts.testBit E.ID = true ∧ ¬ E.Feature = ""
    · simp [getExtensionFeatures, hE, ih, List.filter]
    · have hp : (InputExts.testBit E.ID && decide (¬ E.Feature = "")) = false := by
        rcases not_and_or.1 hE with h | h
        · simp [h]
        · simp [not_not.1 h]
      simp only [getExtensionFeatures, hE, if_false, ih, List.filter, hp]

theorem filter_unique_id (Extensions : List ExtensionInfo) (E : ExtensionInfo)
    (hID : (Extensions.map (fun A => A.ID)).Nodup) (hE : E ∈ Extensions)
    (hF : ¬ E.Feature = "") :
    Extensions.filter (fun A => (2 ^ E.ID).testBit A.ID && decide (¬ A.Feature = "")) = [E] := by
  induction Extensions with
  | nil => simp at hE
  | cons A rest ih =>
    rw [List.map_cons, List.nodup_cons] at hID
    obtain ⟨hA, hrest⟩ := hID
    rcases List.mem_cons.1 hE with hEA | hErest
    · subst hEA
      have hnone : rest.filter
          (fun A => (2 ^ E.ID).testBit A.ID && decide (¬ A.Feature = "")) = [] := by
        rw [List.filter_eq_nil_iff]
        intro B hB hp
        have hBid : E.ID = B.ID := by
          simp [Nat.testBit_two_pow] at hp
          exact hp.1
        exact hA (by rw [hBid]; exact List.mem_map_of_mem _ hB)
      have hpE : ((2 ^ E.ID).testBit E.ID && decide (¬ E.Feature = "")) = true := by
        simp [Nat.testBit_two_pow, hF]
      simp only [List.filter_cons, hpE, hnone, if_true]
    · have hne : ¬ E.ID = A.ID := by
        intro hEq
        exact hA (by rw [← hEq]; exact List.mem_map_of_mem (fun A => A.ID) hErest)
      have hpA : ((2 ^ E.ID).testBit A.ID && decide (¬ A.Feature = "")) = false := by
        simp [Nat.testBit_two_pow, hne]
      simp only [List.filter_cons, hpA, Bool.false_eq_true, if_false]
      exact ih hrest hErest

theorem foldl_push (α : Type) (f : α → String) (l : List α) (init : List String) :
    l.foldl (fun V x => V ++ [f x]) init = init ++ l.map f := by
  induction l generalizing init with
  | nil => simp
  | cons x rest ih => simp [ih]

theorem resolveCPUAlias_cases (CpuAliases : List CpuAlias) (Name : String) :
    ((∀ B ∈ CpuAliases, B.Alias ≠ Name) ∧ resolveCPUAlias CpuAliases Name = Name) ∨
    ∃ pre A post, CpuAliases = pre ++ A :: post ∧ (∀ B ∈ pre, B.Alias ≠ Name) ∧
      A.Alias = Name ∧ resolveCPUAlias CpuAliases Name = A.Name := by
  induction CpuAliases with
  | nil => exact Or.inl ⟨by simp, rfl⟩
  | cons X rest ih =>
    by_cases hX : X.Alias = Name
    · exact Or.inr ⟨[], X, rest, rfl, by simp, hX, by simp [resolveCPUAlias, hX]⟩
    · rcases ih with ⟨hno, hres⟩ | ⟨pre, A, post, hsplit, hpre, hA, hres⟩
      · refine Or.inl ⟨?_, by simp [resolveCPUAlias, hX, hres]⟩
        intro B hB
        rcases List.mem_cons.1 hB with hBX | hBrest
        · rw [hBX]; exact hX
        · exact hno B hBrest
      · refine Or.inr ⟨X :: pre, A, post, by rw [hsplit]; rfl, ?_, hA,
          by simp [resolveCPUAlias, hX, hres]⟩
        intro B hB
        rcases List.mem_cons.1 hB with hBX | hBpre
        · rw [hBX]; exact hX
        · exact hpre B hBpre

theorem parseArchExtension_eq_find (Extensions : List ExtensionInfo) (ArchExt : String) :
    parseArchExtension Extensions ArchExt =
      Extensions.find? (fun A => decide (ArchExt = A.Name)) := by
  induction Extensions with
  | nil => rfl
  | cons A rest ih =>
    by_cases hA : ArchExt = A.Name
    · simp [parseArchExtension, List.find?, hA]
    · simp [parseArchExtension, List.find?, hA, ih]

theorem parseArchExtension_some_iff (Extensions : List ExtensionInfo) (ArchExt : String)
    (E : ExtensionInfo) :
    parseArchExtension Extensions ArchExt = some E ↔
      E.Name = ArchExt ∧
      ∃ pre post, Extensions = pre ++ E :: post ∧ ∀ B ∈ pre, B.Name ≠ ArchExt := by
  rw [parseArchExtension_eq_find, List.find?_eq_some]
  constructor
  · rintro ⟨hE, pre, post, hsplit, hpre⟩
    refine ⟨(of_decide_eq_true hE).symm, pre, post, hsplit, ?_⟩
    intro B hB hEq
    have := hpre B hB
    simp [hEq] at this
  · rintro ⟨hE, pre, post, hsplit, hpre⟩
    refine ⟨by simp [hE], pre, post, hsplit, ?_⟩
    intro B hB
    have := hpre B hB
    simp [Ne.symm this]

theorem parseArchExtension_none_iff (Extensions : List ExtensionInfo) (ArchExt : String) :
    parseArchExtension Extensions ArchExt = none ↔ ∀ B ∈ Extensions, B.Name ≠ ArchExt := by
  rw [parseArchExtension_eq_find, List.find?_eq_none]
  constructor
  · intro h B hB hEq
    have := h B hB
    simp [hEq] at this
  · intro h B hB
    have := h B hB
    simp [Ne.symm this]

theorem isDigit_bounds (c : Char) (h : c.isDigit = true) : 48 ≤ c.toNat ∧ c.toNat ≤ 57 := by
  simp only [Char.isDigit, Bool.and_eq_true, decide_eq_true_eq] at h
  exact ⟨h.1, h.2⟩

theorem checkArchVersion_le (Arch : String) : checkArchVersion Arch ≤ 9 := by
  unfold checkArchVersion
  split
  · next c0 c1 rest hdata =>
    by_cases hc : c0 = 'v' ∧ c1.isDigit = true
    · have hb := isDigit_bounds c1 hc.2
      simp only [hc, and_self, if_true]
      omega
    · simp [hc]
  · decide

theorem checkArchVersion_pos_shape (Arch : String) (h : 0 < checkArchVersion Arch) :
    ∃ d rest, Arch.data = 'v' :: d :: rest ∧ d.isDigit = true ∧
      checkArchVersion Arch = d.toNat - 48 := by
  unfold checkArchVersion at h ⊢
  split at h
  · next c0 c1 rest hdata =>
    by_cases hc : c0 = 'v' ∧ c1.isDigit = true
    · refine ⟨c1, rest, by rw [hdata, hc.1], hc.2, ?_⟩
      simp [hdata, hc]
    · simp [hc] at h
  · exact absurd h (by decide)

/-! ## CPU and alias resolution -/

/-- Claim C1, as stated, fails: the CPU table holds the name `grace`, the
alias table redirects `grace` to `neoverse-v2`, which the CPU table lacks,
and `parseCpu` returns nothing for `grace`. -/
theorem parseCpu_aliased_name_counterexample :
    (⟨"grace", archV9, 0⟩ : CpuInfo) ∈ [(⟨"grace", archV9, 0⟩ : CpuInfo)] ∧
    parseCpu [⟨"grace", archV9, 0⟩] [⟨"grace", "neoverse-v2"⟩] "grace" = none := by
  decide

/-- Claim C1, amended: for every CPU table and alias table and every
descriptor `C` of the CPU table whose name the alias table leaves unchanged
(`resolveCPUAlias` returns it as it is, as for every name that is not an alias
string), `parseCpu` on that name returns a present result: a descriptor of
the CPU table with that name, the first such in table order. -/
theorem parseCpu_of_table_name (CpuInfos : List CpuInfo) (CpuAliases : List CpuAlias)
    (C : CpuInfo) (hC : C ∈ CpuInfos)
    (hAlias : resolveCPUAlias CpuAliases C.Name = C.Name) :
    ∃ D, parseCpu CpuInfos CpuAliases C.Name = some D ∧ D ∈ CpuInfos ∧ D.Name = C.Name ∧
      ∃ pre post, CpuInfos = pre ++ D :: post ∧ ∀ B ∈ pre, B.Name ≠ C.Name := by
  obtain ⟨D, hD⟩ := parseCpuLoop_of_mem CpuInfos C hC
  obtain ⟨hName, pre, post, hsplit, hpre⟩ := (parseCpuLoop_some_iff CpuInfos C.Name D).1 hD
  refine ⟨D, ?_, ?_, hName, pre, post, hsplit, hpre⟩
  · simp [parseCpu, hAlias, hD]
  · rw [hsplit]; simp

theorem parseCpu_of_table_name_witness :
    ∃ D, parseCpu [⟨"neoverse-v2", archV9, 0⟩, ⟨"grace", archV8, 0⟩]
        [⟨"grace", "neoverse-v2"⟩] "neoverse-v2" = some D ∧
      D ∈ [(⟨"neoverse-v2", archV9, 0⟩ : CpuInfo), ⟨"grace", archV8, 0⟩] ∧
      D.Name = "neoverse-v2" ∧
      ∃ pre post, [(⟨"neoverse-v2", archV9, 0⟩ : CpuInfo), ⟨"grace", archV8, 0⟩]
          = pre ++ D :: post ∧ ∀ B ∈ pre, B.Name ≠ "neoverse-v2" :=
  parseCpu_of_table_name [⟨"neoverse-v2", archV9, 0⟩, ⟨"grace", archV8, 0⟩]
    [⟨"grace", "neoverse-v2"⟩] ⟨"neoverse-v2", archV9, 0⟩ (by decide) (by decide)

/-- Claim C2, as stated, fails: the alias table holds the pairs
`(grace, neoverse-v2)` and `(grace, neoverse-n2)`, in this order, and
`resolveCPUAlias` on `grace` returns `neoverse-v2`, not the `neoverse-n2` of
the second pair. -/
theorem resolveCPUAlias_repeated_alias_counterexample :
    (⟨"grace", "neoverse-n2"⟩ : CpuAlias) ∈
        [(⟨"grace", "neoverse-v2"⟩ : CpuAlias), ⟨"grace", "neoverse-n2"⟩] ∧
    resolveCPUAlias [⟨"grace", "neoverse-v2"⟩, ⟨"grace", "neoverse-n2"⟩] "grace"
      ≠ "neoverse-n2" := by
  decide

/-- Claim C2, amended: for every alias table and every pair `(a, c)` in it
that no earlier pair with the alias string `a` precedes, `resolveCPUAlias`
on `a` returns `c`. -/
theorem resolveCPUAlias_of_first_pair (CpuAliases pre post : List CpuAlias) (A : CpuAlias)
    (hsplit : CpuAliases = pre ++ A :: post)
    (hfirst : ∀ B ∈ pre, B.Alias ≠ A.Alias) :
    resolveCPUAlias CpuAliases A.Alias = A.Name := by
  rw [hsplit]
  exact resolveCPUAlias_first pre post A hfirst

theorem resolveCPUAlias_of_first_pair_witness :
    resolveCPUAlias [⟨"cobalt-100", "neoverse-n2"⟩, ⟨"grace", "neoverse-v2"⟩,
        ⟨"grace", "neoverse-n2"⟩] "grace" = "neoverse-v2" :=
  resolveCPUAlias_of_first_pair _ [⟨"cobalt-100", "neoverse-n2"⟩] [⟨"grace", "neoverse-n2"⟩]
    ⟨"grace", "neoverse-v2"⟩ rfl (by decide)

/-- Claim C3, as stated, fails: no alias target of the table
`(grace, neoverse-v2)`, `(grace, neoverse-n2)` is an alias string, the CPU
table holds `neoverse-v2` only, and for the second pair `parseCpu` finds a
descriptor for `grace` and none for `neoverse-n2`. -/
theorem parseCpu_repeated_alias_counterexample :
    (∀ A ∈ [(⟨"grace", "neoverse-v2"⟩ : CpuAlias), ⟨"grace", "neoverse-n2"⟩],
      ∀ B ∈ [(⟨"grace", "neoverse-v2"⟩ : CpuAlias), ⟨"grace", "neoverse-n2"⟩],
        B.Alias ≠ A.Name) ∧
    (⟨"grace", "neoverse-n2"⟩ : CpuAlias) ∈
        [(⟨"grace", "neoverse-v2"⟩ : CpuAlias), ⟨"grace", "neoverse-n2"⟩] ∧
    parseCpu [⟨"neoverse-v2", archV9, 0⟩]
        [⟨"grace", "neoverse-v2"⟩, ⟨"grace", "neoverse-n2"⟩] "grace"
      = some ⟨"neoverse-v2", archV9, 0⟩ ∧
    parseCpu [⟨"neoverse-v2", archV9, 0⟩]
        [⟨"grace", "neoverse-v2"⟩, ⟨"grace", "neoverse-n2"⟩] "neoverse-n2"
      = none := by
  decide

/-- Claim C3, amended: for every CPU table and alias table in which no
alias target is itself an alias string, and for every pair `(a, c)` of the
alias table that no earlier pair with the alias string `a` precedes,
`parseCpu` on `a` equals `parseCpu` on `c`. -/
theorem parseCpu_alias_eq_target (CpuInfos : List CpuInfo)
    (CpuAliases pre post : List CpuAlias) (A : CpuAlias)
    (hhop : ∀ X ∈ CpuAliases, ∀ B ∈ CpuAliases, B.Alias ≠ X.Name)
    (hsplit : CpuAliases = pre ++ A :: post)
    (hfirst : ∀ B ∈ pre, B.Alias ≠ A.Alias) :
    parseCpu CpuInfos CpuAliases A.Alias = parseCpu CpuInfos CpuAliases A.Name := by
  have hA : A ∈ CpuAliases := by rw [hsplit]; simp
  have h1 : resolveCPUAlias CpuAliases A.Alias = A.Name := by
    rw [hsplit]; exact resolveCPUAlias_first pre post A hfirst
  have h2 : resolveCPUAlias CpuAliases A.Name = A.Name :=
    resolveCPUAlias_of_no_alias CpuAliases A.Name (fun B hB => hhop A hA B hB)
  simp [parseCpu, h1, h2]

theorem parseCpu_alias_eq_target_witness :
    parseCpu [⟨"neoverse-n2", archV9, 0⟩, ⟨"neoverse-v2", archV9, 1⟩]
        [⟨"cobalt-100", "neoverse-n2"⟩, ⟨"grace", "neoverse-v2"⟩] "grace"
      = parseCpu [⟨"neoverse-n2", archV9, 0⟩, ⟨"neoverse-v2", archV9, 1⟩]
        [⟨"cobalt-100", "neoverse-n2"⟩, ⟨"grace", "neoverse-v2"⟩] "neoverse-v2" :=
  parseCpu_alias_eq_target [⟨"neoverse-n2", archV9, 0⟩, ⟨"neoverse-v2", archV9, 1⟩]
    [⟨"cobalt-100", "neoverse-n2"⟩, ⟨"grace", "neoverse-v2"⟩]
    [⟨"cobalt-100", "neoverse-n2"⟩] [] ⟨"grace", "neoverse-v2"⟩
    (by decide) rfl (by decide)

/-- Claim C4, as stated, fails twice.  With `generic` in the CPU table under
the architecture `armv9-a`, `getArchForCpu` on `generic` returns the
baseline given as `ARMV8A` (here `armv8-a`), not the architecture of the
descriptor `parseCpu` returns.  With `grace` in the CPU table and redirected
by the alias table to the absent `neoverse-v2`, `getArchForCpu` on `grace`
returns nothing. -/
theorem getArchForCpu_table_name_counterexample :
    (parseCpu [⟨"generic", archV9, 0⟩] [] "generic" = some ⟨"generic", archV9, 0⟩ ∧
      getArchForCpu archV8 [⟨"generic", archV9, 0⟩] [] "generic" = some archV8 ∧
      archV8 ≠ archV9) ∧
    ((⟨"grace", archV9, 0⟩ : CpuInfo) ∈ [(⟨"grace", archV9, 0⟩ : CpuInfo)] ∧
      getArchForCpu archV8 [⟨"grace", archV9, 0⟩] [⟨"grace", "neoverse-v2"⟩] "grace"
        = none) := by
  decide

/-- Claim C4, amended: for every baseline, CPU table and alias table and
every name `C` other than `generic` that `resolveCPUAlias` sends to a name of
the CPU table (as it does every CPU-table name that is not an alias
string), `getArchForCpu` on `C` is present and equals the architecture
field of the descriptor that `parseCpu` returns for `C`. -/
theorem getArchForCpu_of_table_name (ARMV8A : ArchInfo) (CpuInfos : List CpuInfo)
    (CpuAliases : List CpuAlias) (C : String)
    (hgen : C ≠ "generic")
    (hAlias : ∃ T ∈ CpuInfos, T.Name = resolveCPUAlias CpuAliases C) :
    ∃ D, parseCpu CpuInfos CpuAliases C = some D ∧
      getArchForCpu ARMV8A CpuInfos CpuAliases C = some D.Arch := by
  obtain ⟨T, hT, hTn⟩ := hAlias
  obtain ⟨D, hD⟩ := parseCpuLoop_of_mem CpuInfos T hT
  have hP : parseCpu CpuInfos CpuAliases C = some D := by
    simp only [parseCpu, ← hTn, hD]
  exact ⟨D, hP, by simp [getArchForCpu, hgen, hP]⟩

theorem getArchForCpu_of_table_name_witness :
    ∃ D, parseCpu [⟨"neoverse-v2", archV9, 0⟩, ⟨"cortex-a53", archV8, 0⟩]
        [⟨"grace", "neoverse-v2"⟩] "cortex-a53" = some D ∧
      getArchForCpu archV8 [⟨"neoverse-v2", archV9, 0⟩, ⟨"cortex-a53", archV8, 0⟩]
        [⟨"grace", "neoverse-v2"⟩] "cortex-a53" = some D.Arch :=
  getArchForCpu_of_table_name archV8 [⟨"neoverse-v2", archV9, 0⟩, ⟨"cortex-a53", archV8, 0⟩]
    [⟨"grace", "neoverse-v2"⟩] "cortex-a53" (by decide)
    ⟨⟨"cortex-a53", archV8, 0⟩, by decide, by decide⟩

/-- Claim C5: for every baseline descriptor `ARMV8A`, every CPU table and
every alias table, `getArchForCpu` on `generic` returns the present
baseline descriptor, whether `generic` is absent from the tables, is an
alias, or is a CPU of another architecture. -/
theorem getArchForCpu_generic (ARMV8A : ArchInfo) (CpuInfos : List CpuInfo)
    (CpuAliases : List CpuAlias) :
    getArchForCpu ARMV8A CpuInfos CpuAliases "generic" = some ARMV8A := by
  simp [getArchForCpu]

/-! ## Architecture resolution -/

/-- Claim C6: for every input, architecture table, canonicalization
collaborator and synonym collaborator, when the canonicalized input passes
the version check (version at least 8), `parseArch` returns an entry
exactly when that entry is the first in table order whose name ends with
the synonym of the canonicalized input (no earlier entry has that suffix),
and returns nothing exactly when no entry has that suffix. -/
theorem parseArch_first_suffix_match (getCanonicalArchName getArchSynonym : String → String)
    (ArchInfos : List ArchInfo) (Arch : String)
    (hver : 8 ≤ checkArchVersion (getCanonicalArchName Arch)) :
    (∀ A, parseArch getCanonicalArchName getArchSynonym ArchInfos Arch = some A ↔
      ends_with A.Name (getArchSynonym (getCanonicalArchName Arch)) = true ∧
      ∃ pre post, ArchInfos = pre ++ A :: post ∧
        ∀ B ∈ pre, ends_with B.Name (getArchSynonym (getCanonicalArchName Arch)) = false) ∧
    (parseArch getCanonicalArchName getArchSynonym ArchInfos Arch = none ↔
      ∀ B ∈ ArchInfos,
        ends_with B.Name (getArchSynonym (getCanonicalArchName Arch)) = false) := by
  have hlt : ¬ checkArchVersion (getCanonicalArchName Arch) < 8 := by omega
  have hrun : parseArch getCanonicalArchName getArchSynonym ArchInfos Arch =
      ArchInfos.find? (fun A => ends_with A.Name (getArchSynonym (getCanonicalArchName Arch))) := by
    simp only [parseArch, hlt, if_false, parseArchLoop_eq_find]
  rw [hrun]
  refine ⟨fun A => ?_, ?_⟩
  · rw [List.find?_eq_some]
    simp
  · rw [List.find?_eq_none]
    simp

theorem parseArch_first_suffix_match_witness :
    (∀ A, parseArch id (fun S => if S = "v8a" then "v8-a" else S)
        [⟨"armv9-a", "v9a", 9⟩, ⟨"armv8-a", "v8a", 8⟩, ⟨"armv8-a", "v8", 8⟩] "v8a" = some A ↔
      ends_with A.Name ((fun S => if S = "v8a" then "v8-a" else S) (id "v8a")) = true ∧
      ∃ pre post,
        [(⟨"armv9-a", "v9a", 9⟩ : ArchInfo), ⟨"armv8-a", "v8a", 8⟩, ⟨"armv8-a", "v8", 8⟩]
          = pre ++ A :: post ∧
        ∀ B ∈ pre,
          ends_with B.Name ((fun S => if S = "v8a" then "v8-a" else S) (id "v8a")) = false) ∧
    (parseArch id (fun S => if S = "v8a" then "v8-a" else S)
        [⟨"armv9-a", "v9a", 9⟩, ⟨"armv8-a", "v8a", 8⟩, ⟨"armv8-a", "v8", 8⟩] "v8a" = none ↔
      ∀ B ∈ [(⟨"armv9-a", "v9a", 9⟩ : ArchInfo), ⟨"armv8-a", "v8a", 8⟩, ⟨"armv8-a", "v8", 8⟩],
        ends_with B.Name ((fun S => if S = "v8a" then "v8-a" else S) (id "v8a")) = false) :=
  parseArch_first_suffix_match id (fun S => if S = "v8a" then "v8-a" else S)
    [⟨"armv9-a", "v9a", 9⟩, ⟨"armv8-a", "v8a", 8⟩, ⟨"armv8-a", "v8", 8⟩] "v8a" (by decide)

/-- Claim C7: for every input, collaborators and architecture table,
`parseArch` returns nothing whenever the canonicalized string is not a
leading `v` followed by a decimal digit as its second character, and
whenever the version `checkArchVersion` extracts from it is less than 8,
whatever the table holds. -/
theorem parseArch_rejects (getCanonicalArchName getArchSynonym : String → String)
    (ArchInfos : List ArchInfo) (Arch : String)
    (h : (¬ ∃ d rest, (getCanonicalArchName Arch).data = 'v' :: d :: rest ∧ d.isDigit = true) ∨
      checkArchVersion (getCanonicalArchName Arch) < 8) :
    parseArch getCanonicalArchName getArchSynonym ArchInfos Arch = none := by
  have hlt : checkArchVersion (getCanonicalArchName Arch) < 8 := by
    rcases h with h | h
    · rw [checkArchVersion_of_not_v_digit _ h]; decide
    · exact h
  simp [parseArch, hlt]

theorem parseArch_rejects_witness :
    parseArch id id [⟨"armv7a", "v7a", 7⟩] "v7a" = none ∧
    parseArch id id [⟨"armv8-a", "v8a", 8⟩] "armv8-a" = none :=
  ⟨parseArch_rejects id id [⟨"armv7a", "v7a", 7⟩] "v7a" (Or.inr (by decide)),
   parseArch_rejects id id [⟨"armv8-a", "v8a", 8⟩] "armv8-a"
    (Or.inl (by rintro ⟨d, rest, hd, -⟩; have h0 : some 'a' = some 'v' := congrArg List.head? hd; exact absurd h0 (by decide)))⟩

/-! ## Extension feature strings -/

/-- Claim C8, as stated, fails twice.  An entry named `nop` with the
feature `+nop` is read as the negation of `p`, which the table lacks, and
`getArchExtFeature` returns the empty string.  With two entries named `sve`,
`getArchExtFeature` returns the feature `+sve` of the first, not the `+sve2`
of the second. -/
theorem getArchExtFeature_positive_counterexample :
    ((⟨"nop", 1, 1, "+nop", "-nop"⟩ : ExtensionInfo) ∈
        [(⟨"nop", 1, 1, "+nop", "-nop"⟩ : ExtensionInfo)] ∧
      "+nop" ≠ "" ∧
      getArchExtFeature [⟨"nop", 1, 1, "+nop", "-nop"⟩] "nop" = "") ∧
    ((⟨"sve", 2, 2, "+sve2", "-sve2"⟩ : ExtensionInfo) ∈
        [(⟨"sve", 1, 1, "+sve", "-sve"⟩ : ExtensionInfo), ⟨"sve", 2, 2, "+sve2", "-sve2"⟩] ∧
      "+sve2" ≠ "" ∧
      getArchExtFeature [⟨"sve", 1, 1, "+sve", "-sve"⟩, ⟨"sve", 2, 2, "+sve2", "-sve2"⟩] "sve"
        = "+sve") := by
  decide

/-- Claim C8, amended: for every extension table and every entry `E` of it
that no earlier entry of the same name precedes, whose name does not begin
with `no` and whose positive feature string `F` is non-empty,
`getArchExtFeature` on the name of `E` returns `F`. -/
theorem getArchExtFeature_positive (Extensions pre post : List ExtensionInfo)
    (E : ExtensionInfo)
    (hsplit : Extensions = pre ++ E :: post)
    (hfirst : ∀ B ∈ pre, B.Name ≠ E.Name)
    (hno : starts_with E.Name "no" = false)
    (hF : E.Feature ≠ "") :
    getArchExtFeature Extensions E.Name = E.Feature ∧
      getArchExtFeature Extensions E.Name ≠ "" := by
  have hparse : parseArchExtension Extensions E.Name = some E := by
    rw [hsplit]; exact parseArchExtension_first pre post E hfirst
  have hrun : getArchExtFeature Extensions E.Name = E.Feature := by
    simp [getArchExtFeature, hno, hparse]
  exact ⟨hrun, by rw [hrun]; exact hF⟩

theorem getArchExtFeature_positive_witness :
    getArchExtFeature [⟨"fp", 0, 0, "+fp-armv8", "-fp-armv8"⟩, ⟨"sve", 1, 1, "+sve", "-sve"⟩,
        ⟨"sve", 2, 2, "+sve2", "-sve2"⟩] "sve" = "+sve" ∧
      getArchExtFeature [⟨"fp", 0, 0, "+fp-armv8", "-fp-armv8"⟩, ⟨"sve", 1, 1, "+sve", "-sve"⟩,
        ⟨"sve", 2, 2, "+sve2", "-sve2"⟩] "sve" ≠ "" :=
  getArchExtFeature_positive _ [⟨"fp", 0, 0, "+fp-armv8", "-fp-armv8"⟩]
    [⟨"sve", 2, 2, "+sve2", "-sve2"⟩] ⟨"sve", 1, 1, "+sve", "-sve"⟩ rfl
    (by decide) (by decide) (by decide)

/-- Claim C9, as stated, fails: with two entries named `sve`, both with a
non-empty positive feature string, `getArchExtFeature` on `nosve` returns the
negative feature `-sve` of the first, not the `-sve2` of the second. -/
theorem getArchExtFeature_negative_counterexample :
    (⟨"sve", 2, 2, "+sve2", "-sve2"⟩ : ExtensionInfo) ∈
        [(⟨"sve", 1, 1, "+sve", "-sve"⟩ : ExtensionInfo), ⟨"sve", 2, 2, "+sve2", "-sve2"⟩] ∧
    "+sve2" ≠ "" ∧
    getArchExtFeature [⟨"sve", 1, 1, "+sve", "-sve"⟩, ⟨"sve", 2, 2, "+sve2", "-sve2"⟩]
        ("no" ++ "sve") = "-sve" ∧
    "-sve" ≠ "-sve2" := by
  decide

/-- Claim C9, amended: for every extension table and every entry `E` of it
that no earlier entry of the same name precedes, `getArchExtFeature` on `no`
followed by the name of `E` returns the negative feature string of `E`; so it
does when the positive feature string of `E` is non-empty, which plays no
part. -/
theorem getArchExtFeature_negative (Extensions pre post : List ExtensionInfo)
    (E : ExtensionInfo)
    (hsplit : Extensions = pre ++ E :: post)
    (hfirst : ∀ B ∈ pre, B.Name ≠ E.Name) :
    getArchExtFeature Extensions ("no" ++ E.Name) = E.NegFeature := by
  have hparse : parseArchExtension Extensions E.Name = some E := by
    rw [hsplit]; exact parseArchExtension_first pre post E hfirst
  simp [getArchExtFeature, starts_with_no_append, drop_front_no_append, hparse]

theorem getArchExtFeature_negative_witness :
    getArchExtFeature [⟨"fp", 0, 0, "+fp-armv8", "-fp-armv8"⟩, ⟨"nop", 1, 1, "+nop", "-nop"⟩]
        ("no" ++ "nop") = "-nop" :=
  getArchExtFeature_negative _ [⟨"fp", 0, 0, "+fp-armv8", "-fp-armv8"⟩] []
    ⟨"nop", 1, 1, "+nop", "-nop"⟩ rfl (by decide)

/-! ## The supports mask -/

/-- Claim C10: for every extension table whose `CPUFeature` values are all
below 64, every token sequence and every bit position `b` (below 64 or
not), bit `b` of `getCpuSupportsMask` is set if and only if some token of the
sequence resolves through `parseArchExtension` to a descriptor whose
`CPUFeature` is `b`; the mask is the bitwise union of `1 <<< CPUFeature` over
the resolved tokens and fits in 64 bits. -/
theorem getCpuSupportsMask_bits (Extensions : List ExtensionInfo)
    (hlt : ∀ E ∈ Extensions, E.CPUFeature < 64)
    (FeatureStrs : List String) (b : Nat) :
    ((getCpuSupportsMask Extensions FeatureStrs).testBit b = true ↔
      ∃ t ∈ FeatureStrs, ∃ E, parseArchExtension Extensions t = some E ∧ E.CPUFeature = b) ∧
    getCpuSupportsMask Extensions FeatureStrs =
      ((FeatureStrs.filterMap (parseArchExtension Extensions)).map
        (fun E => 1 <<< E.CPUFeature)).foldl (fun m x => m ||| x) 0 ∧
    getCpuSupportsMask Extensions FeatureStrs < 2 ^ 64 := by
  refine ⟨?_, ?_, ?_⟩
  · rw [getCpuSupportsMask, getCpuSupportsMaskLoop_testBit Extensions hlt]
    simp
  · rw [getCpuSupportsMask, getCpuSupportsMaskLoop_eq_fold Extensions hlt]
  · exact getCpuSupportsMaskLoop_lt Extensions 0 FeatureStrs (by decide)

theorem getCpuSupportsMask_bits_witness :
    ((getCpuSupportsMask [⟨"fp", 0, 1, "+fp-armv8", "-fp-armv8"⟩, ⟨"sve", 1, 3, "+sve", "-sve"⟩]
        ["sve", "bogus", "fp", "sve"]).testBit 3 = true ↔
      ∃ t ∈ ["sve", "bogus", "fp", "sve"], ∃ E,
        parseArchExtension [⟨"fp", 0, 1, "+fp-armv8", "-fp-armv8"⟩, ⟨"sve", 1, 3, "+sve", "-sve"⟩] t
          = some E ∧ E.CPUFeature = 3) ∧
    getCpuSupportsMask [⟨"fp", 0, 1, "+fp-armv8", "-fp-armv8"⟩, ⟨"sve", 1, 3, "+sve", "-sve"⟩]
        ["sve", "bogus", "fp", "sve"] =
      ((["sve", "bogus", "fp", "sve"].filterMap (parseArchExtension
          [⟨"fp", 0, 1, "+fp-armv8", "-fp-armv8"⟩, ⟨"sve", 1, 3, "+sve", "-sve"⟩])).map
        (fun E => 1 <<< E.CPUFeature)).foldl (fun m x => m ||| x) 0 ∧
    getCpuSupportsMask [⟨"fp", 0, 1, "+fp-armv8", "-fp-armv8"⟩, ⟨"sve", 1, 3, "+sve", "-sve"⟩]
        ["sve", "bogus", "fp", "sve"] < 2 ^ 64 :=
  getCpuSupportsMask_bits [⟨"fp", 0, 1, "+fp-armv8", "-fp-armv8"⟩, ⟨"sve", 1, 3, "+sve", "-sve"⟩]
    (by decide) ["sve", "bogus", "fp", "sve"] 3

/-- Claim C11: `getCpuSupportsMask` skips unknown tokens.  For every
extension table and token sequence the mask equals the mask of the sequence
without the tokens `parseArchExtension` does not resolve; the empty sequence
gives 0, a sequence of unknown tokens only gives 0, and a sequence of one
known token, resolved to `E` with `E.CPUFeature` below 64 (the shift amounts
for which `1ULL << CPUFeature` is defined), among unknown tokens gives
exactly `1 <<< E.CPUFeature`. -/
theorem getCpuSupportsMask_skips_unknown (Extensions : List ExtensionInfo)
    (FeatureStrs : List String) :
    getCpuSupportsMask Extensions FeatureStrs =
      getCpuSupportsMask Extensions
        (FeatureStrs.filter (fun t => (parseArchExtension Extensions t).isSome)) ∧
    getCpuSupportsMask Extensions [] = 0 ∧
    ((∀ t ∈ FeatureStrs, parseArchExtension Extensions t = none) →
      getCpuSupportsMask Extensions FeatureStrs = 0) ∧
    (∀ us vs t E, FeatureStrs = us ++ t :: vs →
      (∀ u ∈ us, parseArchExtension Extensions u = none) →
      (∀ v ∈ vs, parseArchExtension Extensions v = none) →
      parseArchExtension Extensions t = some E →
      E.CPUFeature < 64 →
      getCpuSupportsMask Extensions FeatureStrs = 1 <<< E.CPUFeature) := by
  refine ⟨getCpuSupportsMaskLoop_filter Extensions 0 FeatureStrs, rfl, ?_, ?_⟩
  · intro h
    exact getCpuSupportsMaskLoop_unknown Extensions 0 FeatureStrs h
  · intro us vs t E hsplit hus hvs ht hE
    have hrun : getCpuSupportsMask Extensions FeatureStrs = shl64 1 E.CPUFeature := by
      rw [hsplit, getCpuSupportsMask, getCpuSupportsMaskLoop_append,
        getCpuSupportsMaskLoop_unknown Extensions 0 us hus]
      simp only [getCpuSupportsMaskLoop, ht]
      rw [getCpuSupportsMaskLoop_unknown Extensions _ vs hvs]
      simp
    rw [hrun, shl64_one _ hE, Nat.one_shiftLeft]

theorem getCpuSupportsMask_skips_unknown_witness :
    getCpuSupportsMask [⟨"fp", 0, 1, "+fp-armv8", "-fp-armv8"⟩, ⟨"sve", 1, 3, "+sve", "-sve"⟩]
        ["bogus", "sve", "junk"] = 1 <<< 3 ∧
    getCpuSupportsMask [⟨"fp", 0, 1, "+fp-armv8", "-fp-armv8"⟩, ⟨"sve", 1, 3, "+sve", "-sve"⟩]
        ["bogus", "junk"] = 0 :=
  ⟨(getCpuSupportsMask_skips_unknown
      [⟨"fp", 0, 1, "+fp-armv8", "-fp-armv8"⟩, ⟨"sve", 1, 3, "+sve", "-sve"⟩]
      ["bogus", "sve", "junk"]).2.2.2 ["bogus"] ["junk"] "sve" ⟨"sve", 1, 3, "+sve", "-sve"⟩
      rfl (by decide) (by decide) (by decide) (by decide),
   (getCpuSupportsMask_skips_unknown
      [⟨"fp", 0, 1, "+fp-armv8", "-fp-armv8"⟩, ⟨"sve", 1, 3, "+sve", "-sve"⟩]
      ["bogus", "junk"]).2.2.1 (by decide)⟩

/-! ## Projection of an extension bitset -/

/-- Claim C12: for every extension table, bitset and initial output list,
`getExtensionFeatures` returns true and leaves the output equal to its
initial contents followed by the positive feature strings of the table
entries whose `ID` bit is set and whose positive feature string is
non-empty, in table order; no empty string is appended. -/
theorem getExtensionFeatures_output (Extensions : List ExtensionInfo)
    (InputExts : ExtensionBitset) (Features : List String) :
    (getExtensionFeatures Extensions InputExts Features).1 = true ∧
    (getExtensionFeatures Extensions InputExts Features).2 =
      Features ++ (Extensions.filter
        (fun E => InputExts.testBit E.ID && decide (¬ E.Feature = ""))).map
          (fun E => E.Feature) ∧
    ∀ F ∈ (Extensions.filter
        (fun E => InputExts.testBit E.ID && decide (¬ E.Feature = ""))).map
          (fun E => E.Feature), F ≠ "" := by
  rw [getExtensionFeatures_eq]
  refine ⟨rfl, rfl, ?_⟩
  intro F hF
  obtain ⟨E, hE, rfl⟩ := List.mem_map.1 hF
  have hp := (List.mem_filter.1 hE).2
  simp at hp
  exact hp.2

theorem getExtensionFeatures_output_witness :
    (getExtensionFeatures [⟨"none", 0, 0, "", ""⟩, ⟨"fp", 1, 1, "+fp-armv8", "-fp-armv8"⟩,
        ⟨"sve", 2, 3, "+sve", "-sve"⟩, ⟨"sve2", 3, 4, "+sve2", "-sve2"⟩] 7 ["+neon"]).1 = true ∧
    (getExtensionFeatures [⟨"none", 0, 0, "", ""⟩, ⟨"fp", 1, 1, "+fp-armv8", "-fp-armv8"⟩,
        ⟨"sve", 2, 3, "+sve", "-sve"⟩, ⟨"sve2", 3, 4, "+sve2", "-sve2"⟩] 7 ["+neon"]).2 =
      ["+neon", "+fp-armv8", "+sve"] ∧
    "+sve" ≠ "" :=
  ⟨(getExtensionFeatures_output [⟨"none", 0, 0, "", ""⟩, ⟨"fp", 1, 1, "+fp-armv8", "-fp-armv8"⟩,
      ⟨"sve", 2, 3, "+sve", "-sve"⟩, ⟨"sve2", 3, 4, "+sve2", "-sve2"⟩] 7 ["+neon"]).1,
   (getExtensionFeatures_output [⟨"none", 0, 0, "", ""⟩, ⟨"fp", 1, 1, "+fp-armv8", "-fp-armv8"⟩,
      ⟨"sve", 2, 3, "+sve", "-sve"⟩, ⟨"sve2", 3, 4, "+sve2", "-sve2"⟩] 7 ["+neon"]).2.1.trans
      (by decide),
   (getExtensionFeatures_output [⟨"none", 0, 0, "", ""⟩, ⟨"fp", 1, 1, "+fp-armv8", "-fp-armv8"⟩,
      ⟨"sve", 2, 3, "+sve", "-sve"⟩, ⟨"sve2", 3, 4, "+sve2", "-sve2"⟩] 7 ["+neon"]).2.2
      "+sve" (by decide)⟩

/-- Claim C13: for every extension table whose `ID` values are unique and
every entry `E` that `parseArchExtension` returns for its own name and whose
positive feature string `F` is non-empty, `getExtensionFeatures` on the
bitset with only bit `E.ID` set, from an empty output, yields the one-element
sequence `F`, which contains `F` exactly once. -/
theorem getExtensionFeatures_single_bit (Extensions : List ExtensionInfo) (E : ExtensionInfo)
    (hID : (Extensions.map (fun A => A.ID)).Nodup)
    (hE : parseArchExtension Extensions E.Name = some E)
    (hF : E.Feature ≠ "") :
    (getExtensionFeatures Extensions (1 <<< E.ID) []).2 = [E.Feature] ∧
    (getExtensionFeatures Extensions (1 <<< E.ID) []).2.count E.Feature = 1 := by
  have hmem : E ∈ Extensions := (parseArchExtension_mem Extensions E.Name E hE).1
  have hout : (getExtensionFeatures Extensions (1 <<< E.ID) []).2 = [E.Feature] := by
    rw [getExtensionFeatures_eq, Nat.one_shiftLeft, filter_unique_id Extensions E hID hmem hF]
    simp
  exact ⟨hout, by rw [hout]; simp⟩

theorem getExtensionFeatures_single_bit_witness :
    (getExtensionFeatures [⟨"none", 0, 0, "", ""⟩, ⟨"fp", 1, 1, "+fp-armv8", "-fp-armv8"⟩,
        ⟨"sve", 2, 3, "+sve", "-sve"⟩] (1 <<< 2) []).2 = ["+sve"] ∧
    (getExtensionFeatures [⟨"none", 0, 0, "", ""⟩, ⟨"fp", 1, 1, "+fp-armv8", "-fp-armv8"⟩,
        ⟨"sve", 2, 3, "+sve", "-sve"⟩] (1 <<< 2) []).2.count "+sve" = 1 :=
  getExtensionFeatures_single_bit [⟨"none", 0, 0, "", ""⟩,
    ⟨"fp", 1, 1, "+fp-armv8", "-fp-armv8"⟩, ⟨"sve", 2, 3, "+sve", "-sve"⟩]
    ⟨"sve", 2, 3, "+sve", "-sve"⟩ (by decide) (by decide) (by decide)

/-! ## Enumeration of the valid CPU names -/

/-- Claim C14: for every CPU table, alias table and initial output list,
`fillValidCPUArchList` leaves the output equal to its initial contents
followed by every CPU-table name in table order and then every alias string
of the alias table in table order; its length grows by the size of the CPU
table plus the size of the alias table. -/
theorem fillValidCPUArchList_output (CpuInfos : List CpuInfo) (CpuAliases : List CpuAlias)
    (Values : List String) :
    fillValidCPUArchList CpuInfos CpuAliases Values =
      Values ++ CpuInfos.map (fun C => C.Name) ++ CpuAliases.map (fun A => A.Alias) ∧
    (fillValidCPUArchList CpuInfos CpuAliases Values).length =
      Values.length + (CpuInfos.length + CpuAliases.length) := by
  have hout : fillValidCPUArchList CpuInfos CpuAliases Values =
      Values ++ CpuInfos.map (fun C => C.Name) ++ CpuAliases.map (fun A => A.Alias) := by
    simp only [fillValidCPUArchList, foldl_push]
  refine ⟨hout, ?_⟩
  rw [hout]
  simp [Nat.add_assoc]

/-! ## Lookups as specified -/

/-- Claim C15: for every alias table and every name, if no alias entry has
the name as its alias string then `resolveCPUAlias` returns the name
unchanged; otherwise it returns the canonical name of the first entry in
table order whose alias string is the name. -/
theorem resolveCPUAlias_first_match (CpuAliases : List CpuAlias) (Name : String) :
    ((∀ B ∈ CpuAliases, B.Alias ≠ Name) → resolveCPUAlias CpuAliases Name = Name) ∧
    ((∃ B ∈ CpuAliases, B.Alias = Name) →
      ∃ pre A post, CpuAliases = pre ++ A :: post ∧ (∀ B ∈ pre, B.Alias ≠ Name) ∧
        A.Alias = Name ∧ resolveCPUAlias CpuAliases Name = A.Name) ∧
    (∀ pre A post, CpuAliases = pre ++ A :: post → (∀ B ∈ pre, B.Alias ≠ Name) →
      A.Alias = Name → resolveCPUAlias CpuAliases Name = A.Name) := by
  refine ⟨resolveCPUAlias_of_no_alias CpuAliases Name, ?_, ?_⟩
  · rintro ⟨B, hB, hBn⟩
    rcases resolveCPUAlias_cases CpuAliases Name with ⟨hno, -⟩ | h
    · exact absurd hBn (hno B hB)
    · exact h
  · intro pre A post hsplit hpre hA
    subst hA
    rw [hsplit]
    exact resolveCPUAlias_first pre post A hpre

theorem resolveCPUAlias_first_match_witness :
    resolveCPUAlias [⟨"cobalt-100", "neoverse-n2"⟩, ⟨"grace", "neoverse-v2"⟩,
        ⟨"grace", "neoverse-n2"⟩] "cortex-a53" = "cortex-a53" ∧
    ∃ pre A post,
      [(⟨"cobalt-100", "neoverse-n2"⟩ : CpuAlias), ⟨"grace", "neoverse-v2"⟩,
        ⟨"grace", "neoverse-n2"⟩] = pre ++ A :: post ∧
      (∀ B ∈ pre, B.Alias ≠ "grace") ∧ A.Alias = "grace" ∧
      resolveCPUAlias [⟨"cobalt-100", "neoverse-n2"⟩, ⟨"grace", "neoverse-v2"⟩,
        ⟨"grace", "neoverse-n2"⟩] "grace" = A.Name :=
  ⟨(resolveCPUAlias_first_match [⟨"cobalt-100", "neoverse-n2"⟩, ⟨"grace", "neoverse-v2"⟩,
      ⟨"grace", "neoverse-n2"⟩] "cortex-a53").1 (by decide),
   (resolveCPUAlias_first_match [⟨"cobalt-100", "neoverse-n2"⟩, ⟨"grace", "neoverse-v2"⟩,
      ⟨"grace", "neoverse-n2"⟩] "grace").2.1 ⟨⟨"grace", "neoverse-v2"⟩, by decide, rfl⟩⟩

/-- Claim C16: `parseArchExtension` is an exact-match lookup.  For every
extension table and token it returns a descriptor if and only if some table
entry has the token as its name; the descriptor returned is the first such
entry in table order and its name is the token. -/
theorem parseArchExtension_exact (Extensions : List ExtensionInfo) (ArchExt : String) :
    ((∃ E, parseArchExtension Extensions ArchExt = some E) ↔
      ∃ A ∈ Extensions, A.Name = ArchExt) ∧
    (∀ E, parseArchExtension Extensions ArchExt = some E ↔
      E.Name = ArchExt ∧
      ∃ pre post, Extensions = pre ++ E :: post ∧ ∀ B ∈ pre, B.Name ≠ ArchExt) := by
  refine ⟨⟨?_, ?_⟩, parseArchExtension_some_iff Extensions ArchExt⟩
  · rintro ⟨E, hE⟩
    exact ⟨E, parseArchExtension_mem Extensions ArchExt E hE⟩
  · rintro ⟨A, hA, hAn⟩
    cases hp : parseArchExtension Extensions ArchExt with
    | some E => exact ⟨E, rfl⟩
    | none => exact absurd hAn ((parseArchExtension_none_iff Extensions ArchExt).1 hp A hA)

/-- Claim C17: alias resolution is single-hop.  For every alias table in
which no alias target is itself an alias string, `resolveCPUAlias` is
idempotent on every name. -/
theorem resolveCPUAlias_idempotent (CpuAliases : List CpuAlias)
    (hhop : ∀ X ∈ CpuAliases, ∀ B ∈ CpuAliases, B.Alias ≠ X.Name) (Name : String) :
    resolveCPUAlias CpuAliases (resolveCPUAlias CpuAliases Name) =
      resolveCPUAlias CpuAliases Name := by
  rcases resolveCPUAlias_cases CpuAliases Name with ⟨-, hres⟩ | ⟨pre, A, post, hsplit, -, -, hres⟩
  · rw [hres, hres]
  · have hA : A ∈ CpuAliases := by rw [hsplit]; simp
    rw [hres]
    exact resolveCPUAlias_of_no_alias CpuAliases A.Name (fun B hB => hhop A hA B hB)

theorem resolveCPUAlias_idempotent_witness :
    resolveCPUAlias [⟨"cobalt-100", "neoverse-n2"⟩, ⟨"grace", "neoverse-v2"⟩]
        (resolveCPUAlias [⟨"cobalt-100", "neoverse-n2"⟩, ⟨"grace", "neoverse-v2"⟩] "grace") =
      resolveCPUAlias [⟨"cobalt-100", "neoverse-n2"⟩, ⟨"grace", "neoverse-v2"⟩] "grace" :=
  resolveCPUAlias_idempotent [⟨"cobalt-100", "neoverse-n2"⟩, ⟨"grace", "neoverse-v2"⟩]
    (by decide) "grace"

/-- Claim C18: for every CPU table, alias table and name `n`, `parseCpu`
returns nothing if and only if no CPU-table entry has the name
`resolveCPUAlias` gives for `n`; a descriptor it returns is an entry of the
CPU table whose name is that resolved name, so the target of the first
alias pair of `n` when `n` is an alias string. -/
theorem parseCpu_none_iff (CpuInfos : List CpuInfo) (CpuAliases : List CpuAlias)
    (Name : String) :
    (parseCpu CpuInfos CpuAliases Name = none ↔
      ∀ C ∈ CpuInfos, C.Name ≠ resolveCPUAlias CpuAliases Name) ∧
    (∀ D, parseCpu CpuInfos CpuAliases Name = some D →
      D ∈ CpuInfos ∧ D.Name = resolveCPUAlias CpuAliases Name ∧
      ∀ pre A post, CpuAliases = pre ++ A :: post → (∀ B ∈ pre, B.Alias ≠ Name) →
        A.Alias = Name → D.Name = A.Name) := by
  refine ⟨parseCpuLoop_none_iff CpuInfos _, ?_⟩
  intro D hD
  obtain ⟨hName, pre, post, hsplit, -⟩ := (parseCpuLoop_some_iff CpuInfos _ D).1 hD
  refine ⟨by rw [hsplit]; simp, hName, ?_⟩
  intro pre A post hsplit hpre hA
  subst hA
  rw [hName, hsplit]
  exact resolveCPUAlias_first pre post A hpre

theorem parseCpu_none_iff_witness :
    (⟨"neoverse-v2", archV9, 0⟩ : CpuInfo) ∈
        [(⟨"cortex-a53", archV8, 0⟩ : CpuInfo), ⟨"neoverse-v2", archV9, 0⟩] ∧
    (⟨"neoverse-v2", archV9, 0⟩ : CpuInfo).Name =
      resolveCPUAlias [⟨"grace", "neoverse-v2"⟩] "grace" ∧
    ∀ pre A post, [(⟨"grace", "neoverse-v2"⟩ : CpuAlias)] = pre ++ A :: post →
      (∀ B ∈ pre, B.Alias ≠ "grace") → A.Alias = "grace" →
      (⟨"neoverse-v2", archV9, 0⟩ : CpuInfo).Name = A.Name :=
  (parseCpu_none_iff [⟨"cortex-a53", archV8, 0⟩, ⟨"neoverse-v2", archV9, 0⟩]
    [⟨"grace", "neoverse-v2"⟩] "grace").2 ⟨"neoverse-v2", archV9, 0⟩ (by decide)

/-! ## The version digit -/

/-- Claim C19: the version check reads one digit.  `checkArchVersion` returns
a value from 0 to 9 for every string; whenever `parseArch` returns a
descriptor, the canonicalized input begins with `v` followed by `8` or `9`;
and a canonicalized form that begins with `v1`, such as `v10-a`, is read as
version 1 and rejected whatever the architecture table holds. -/
theorem checkArchVersion_single_digit (S : String)
    (getCanonicalArchName getArchSynonym : String → String)
    (ArchInfos : List ArchInfo) (Arch : String) :
    checkArchVersion S ≤ 9 ∧
    (∀ A, parseArch getCanonicalArchName getArchSynonym ArchInfos Arch = some A →
      ∃ d rest, (getCanonicalArchName Arch).data = 'v' :: d :: rest ∧ (d = '8' ∨ d = '9')) ∧
    (∀ rest, (getCanonicalArchName Arch).data = 'v' :: '1' :: rest →
      checkArchVersion (getCanonicalArchName Arch) = 1 ∧
      parseArch getCanonicalArchName getArchSynonym ArchInfos Arch = none) := by
  refine ⟨checkArchVersion_le S, ?_, ?_⟩
  · intro A hA
    have hver : 8 ≤ checkArchVersion (getCanonicalArchName Arch) := by
      by_cases hlt : checkArchVersion (getCanonicalArchName Arch) < 8
      · simp [parseArch, hlt] at hA
      · omega
    obtain ⟨d, rest, hdata, hdig, hval⟩ :=
      checkArchVersion_pos_shape (getCanonicalArchName Arch) (by omega)
    have hb := isDigit_bounds d hdig
    refine ⟨d, rest, hdata, ?_⟩
    have hd : d = Char.ofNat d.toNat := (Char.ofNat_toNat d).symm
    have hcase : d.toNat = 56 ∨ d.toNat = 57 := by omega
    rcases hcase with h | h
    · left; rw [hd, h]
    · right; rw [hd, h]
  · intro rest hdata
    have hver : checkArchVersion (getCanonicalArchName Arch) = 1 := by
      simp [checkArchVersion, hdata]
    exact ⟨hver, by simp [parseArch, hver]⟩

theorem checkArchVersion_single_digit_witness :
    (∃ d rest, (id "v9.2-a").data = 'v' :: d :: rest ∧ (d = '8' ∨ d = '9')) ∧
    (checkArchVersion (id "v10-a") = 1 ∧
      parseArch id id [⟨"armv10-a", "v10a", 10⟩, ⟨"armv1", "v1", 1⟩] "v10-a" = none) :=
  ⟨(checkArchVersion_single_digit "v9.2-a" id id [⟨"armv9.2-a", "v9.2a", 9⟩] "v9.2-a").2.1
      ⟨"armv9.2-a", "v9.2a", 9⟩ (by decide),
   (checkArchVersion_single_digit "v10-a" id id
      [⟨"armv10-a", "v10a", 10⟩, ⟨"armv1", "v1", 1⟩] "v10-a").2.2 ['0', '-', 'a'] rfl⟩

/-! ## The supports mask as a function of the token set -/

/-- Claim C20: `getCpuSupportsMask` depends only on the set of tokens.  For
every extension table whose `CPUFeature` values are below 64 and every two
token sequences, the mask of the concatenation is the bitwise or of the two
masks, and two sequences with the same elements give the same mask. -/
theorem getCpuSupportsMask_append (Extensions : List ExtensionInfo)
    (hlt : ∀ E ∈ Extensions, E.CPUFeature < 64) (xs ys : List String) :
    getCpuSupportsMask Extensions (xs ++ ys) =
      getCpuSupportsMask Extensions xs ||| getCpuSupportsMask Extensions ys ∧
    ((∀ t, t ∈ xs ↔ t ∈ ys) →
      getCpuSupportsMask Extensions xs = getCpuSupportsMask Extensions ys) := by
  constructor
  · apply Nat.eq_of_testBit_eq
    intro b
    rw [Bool.eq_iff_iff, Nat.testBit_or, Bool.or_eq_true,
      getCpuSupportsMask_testBit Extensions hlt, getCpuSupportsMask_testBit Extensions hlt,
      getCpuSupportsMask_testBit Extensions hlt]
    constructor
    · rintro ⟨t, ht, hE⟩
      rcases List.mem_append.1 ht with h | h
      · exact Or.inl ⟨t, h, hE⟩
      · exact Or.inr ⟨t, h, hE⟩
    · rintro (⟨t, ht, hE⟩ | ⟨t, ht, hE⟩)
      · exact ⟨t, List.mem_append.2 (Or.inl ht), hE⟩
      · exact ⟨t, List.mem_append.2 (Or.inr ht), hE⟩
  · intro hset
    apply Nat.eq_of_testBit_eq
    intro b
    rw [Bool.eq_iff_iff, getCpuSupportsMask_testBit Extensions hlt,
      getCpuSupportsMask_testBit Extensions hlt]
    constructor
    · rintro ⟨t, ht, hE⟩
      exact ⟨t, (hset t).1 ht, hE⟩
    · rintro ⟨t, ht, hE⟩
      exact ⟨t, (hset t).2 ht, hE⟩

theorem getCpuSupportsMask_append_witness :
    getCpuSupportsMask [⟨"fp", 0, 1, "+fp-armv8", "-fp-armv8"⟩, ⟨"sve", 1, 3, "+sve", "-sve"⟩]
        (["sve", "bogus", "sve"] ++ ["fp"]) =
      getCpuSupportsMask [⟨"fp", 0, 1, "+fp-armv8", "-fp-armv8"⟩, ⟨"sve", 1, 3, "+sve", "-sve"⟩]
          ["sve", "bogus", "sve"] |||
        getCpuSupportsMask [⟨"fp", 0, 1, "+fp-armv8", "-fp-armv8"⟩, ⟨"sve", 1, 3, "+sve", "-sve"⟩]
          ["fp"] ∧
    getCpuSupportsMask [⟨"fp", 0, 1, "+fp-armv8", "-fp-armv8"⟩, ⟨"sve", 1, 3, "+sve", "-sve"⟩]
        ["sve", "fp", "sve"] =
      getCpuSupportsMask [⟨"fp", 0, 1, "+fp-armv8", "-fp-armv8"⟩, ⟨"sve", 1, 3, "+sve", "-sve"⟩]
        ["fp", "sve"] :=
  ⟨(getCpuSupportsMask_append
      [⟨"fp", 0, 1, "+fp-armv8", "-fp-armv8"⟩, ⟨"sve", 1, 3, "+sve", "-sve"⟩]
      (by decide) ["sve", "bogus", "sve"] ["fp"]).1,
   (getCpuSupportsMask_append
      [⟨"fp", 0, 1, "+fp-armv8", "-fp-armv8"⟩, ⟨"sve", 1, 3, "+sve", "-sve"⟩]
      (by decide) ["sve", "fp", "sve"] ["fp", "sve"]).2
      (by intro t; simp only [List.mem_cons, List.mem_nil_iff, or_false]; tauto)⟩

end AArch64
